import Mathlib

/-!
A shallow embedding of `src/ConnectionPool.py` and proofs about it.

Connections are modelled by their Python object identity (`id(c)`), so a
connection is a natural number.  The registry `AllConnections` maps
`id(connection) -> (connection, timestamp)`; since the key determines the
connection object, we model it as an association list from the connection to
its timestamp, with Python-`dict` semantics (unique keys, `del` removes the
entry, assignment updates in place or appends).  Timestamps (`time.time()`)
are modelled as integers.

The behaviour of the external world — the connector's `probe` and
`connectionIsClosed` verdicts, and whether a given connection's `close()`
raises — is an environment of boolean-valued functions.  Fallible Python code
is modelled with `Except`: an uncaught Python exception is an `Except.error`.
-/

namespace ConnectionPool

/-- A physical connection, identified by its Python object identity `id(c)`. -/
abbrev Conn := Nat

/-- Behaviour of the connector capability and of the connection objects:
`probe` is `Connector.probe` (total, boolean — `PsycopgConnector.probe`
catches its own exceptions and returns `False`), `isClosed` is
`Connector.connectionIsClosed`, and `closeRaises c` says whether the call
`c.close()` raises an exception. -/
structure Env where
  probe : Conn → Bool
  isClosed : Conn → Bool
  closeRaises : Conn → Bool

/-- Python exceptions that the pool code can raise: `KeyError` from a `dict`
lookup or `del`, an exception escaping a connection's `close()`, and an
exception escaping `Connector.connect()` (e.g. `psycopg2.connect` failing). -/
inductive PyErr where
  | keyError
  | closeError
  | openError
  deriving Repr, DecidableEq

/-- `AllConnections[id(c)]`: dict lookup, returning the stored timestamp. -/
def alookup : List (Conn × Int) → Conn → Option Int
  | [], _ => none
  | (k, v) :: rest, x => if k = x then some v else alookup rest x

/-- `del AllConnections[id(c)]`: dict deletion (the entry for the key is
removed; callers model Python's `KeyError` by checking `alookup` first). -/
def adel : List (Conn × Int) → Conn → List (Conn × Int)
  | [], _ => []
  | (k, v) :: rest, x => if k = x then adel rest x else (k, v) :: adel rest x

/-- `AllConnections[id(c)] = (c, t)`: dict assignment — update the entry in
place when the key is present, append it otherwise. -/
def aset : List (Conn × Int) → Conn → Int → List (Conn × Int)
  | [], x, t => [(x, t)]
  | (k, v) :: rest, x, t => if k = x then (x, t) :: rest else (k, v) :: aset rest x t

/-- The mutable state of `_ConnectionPool`: `idle` is `IdleConnections` (same
order as the Python list: `append` adds at the right, `pop()` takes from the
right), `all` is `AllConnections`, and `closedLog` is a ghost log of the
successful `c.close()` calls performed by pool code, in order. -/
structure PoolState where
  idle : List Conn
  all : List (Conn × Int)
  closedLog : List Conn
  deriving Repr, DecidableEq

/-- The state of a freshly constructed `_ConnectionPool`: empty idle list,
empty registry. -/
def poolInitState : PoolState := ⟨[], [], []⟩

/-- The `while self.IdleConnections:` loop of `_ConnectionPool.connect`,
acting on the reversed idle list (so that Python's `pop()` from the right is
the head): pop a connection; if it probes, it is the result and the loop
stops; otherwise `c.close()` (which may raise) and
`del self.AllConnections[id(c)]` (KeyError if absent), and continue.
Returns the chosen connection (`none` when the idle list was exhausted),
the remaining reversed idle list, and the updated registry and close log. -/
def connectAuxRev (env : Env) :
    List Conn → List (Conn × Int) → List Conn →
    Except PyErr (Option Conn × List Conn × List (Conn × Int) × List Conn)
  | [], all, log => Except.ok (none, [], all, log)
  | c :: restRev, all, log =>
    if env.probe c then Except.ok (some c, restRev, all, log)
    else if env.closeRaises c then Except.error PyErr.closeError
    else
      match alookup all c with
      | none => Except.error PyErr.keyError
      | some _ => connectAuxRev env restRev (adel all c) (log ++ [c])

/-- `_ConnectionPool.connect`: run the idle-reuse loop; if it exhausts the
idle list without a successful probe, call `Connector.connect()` — modelled
by `openResult` (`none` when the call raises, `some nc` when it returns the
fresh connection `nc`) — and register the new connection with the current
time.  The returned connection is the one wrapped in `_WrappedConnection`. -/
def connect (env : Env) (openResult : Option Conn) (now : Int) (s : PoolState) :
    Except PyErr (Conn × PoolState) :=
  match connectAuxRev env s.idle.reverse s.all s.closedLog with
  | Except.error e => Except.error e
  | Except.ok (some c, restRev, all2, log2) => Except.ok (c, ⟨restRev.reverse, all2, log2⟩)
  | Except.ok (none, restRev, all2, log2) =>
    match openResult with
    | none => Except.error PyErr.openError
    | some nc => Except.ok (nc, ⟨restRev.reverse, aset all2 nc now, log2⟩)

/-- `_ConnectionPool.returnConnection`: if the connector says the connection
is closed, delete its registry entry (`try ... except KeyError: pass`, hence
no error) and return; otherwise, if it is not already in the idle list,
append it and refresh its registry timestamp. -/
def returnConnection (env : Env) (now : Int) (c : Conn) (s : PoolState) : PoolState :=
  if env.isClosed c then { s with all := adel s.all c }
  else if c ∈ s.idle then s
  else { s with idle := s.idle ++ [c], all := aset s.all c now }

/-- The `for c in self.IdleConnections:` loop of `_ConnectionPool._cleanUp`:
for each idle connection, look up its registry timestamp
(`_, t = self.AllConnections[id(c)]`, KeyError if absent); if
`t < now - idle_timeout`, delete the registry entry and `c.close()` (which
may raise); otherwise keep it in `new_connections` (`acc`). -/
def cleanUpLoop (env : Env) (now idle_timeout : Int) :
    List Conn → List (Conn × Int) → List Conn → List Conn →
    Except PyErr (List (Conn × Int) × List Conn × List Conn)
  | [], all, acc, log => Except.ok (all, acc, log)
  | c :: rest, all, acc, log =>
    match alookup all c with
    | none => Except.error PyErr.keyError
    | some t =>
      if t < now - idle_timeout then
        if env.closeRaises c then Except.error PyErr.closeError
        else cleanUpLoop env now idle_timeout rest (adel all c) acc (log ++ [c])
      else cleanUpLoop env now idle_timeout rest all (acc ++ [c]) log

/-- `_ConnectionPool._cleanUp(idle_timeout)` at time `now`: run the loop over
the idle list and install the retained connections as the new idle list. -/
def cleanUp (env : Env) (now idle_timeout : Int) (s : PoolState) :
    Except PyErr PoolState :=
  match cleanUpLoop env now idle_timeout s.idle s.all [] s.closedLog with
  | Except.error e => Except.error e
  | Except.ok (all2, newIdle, log2) => Except.ok ⟨newIdle, all2, log2⟩

/-- `_ConnectionPool.closeAll`: close every registered connection (in registry
order), then clear registry and idle list.  Closes are assumed to return
normally here. -/
def closeAll (s : PoolState) : PoolState :=
  ⟨[], [], s.closedLog ++ s.all.map Prod.fst⟩

/-- Is an eviction pass free of errors?  (`Except.isOk`, specialised.) -/
def cleanUpOk (r : Except PyErr PoolState) : Bool :=
  match r with
  | Except.ok _ => true
  | Except.error _ => false

/-- `_WrappedConnection`: `hasPool` says whether `self.Pool` is still set,
`connection` is `self.Connection` (`none` once cleared). -/
structure Handle where
  hasPool : Bool
  connection : Option Conn
  deriving Repr, DecidableEq

/-- `_WrappedConnection(self, use_connection)` as built by `connect`. -/
def wrapConnection (c : Conn) : Handle := ⟨true, some c⟩

/-- A release call made by a handle on the underlying resources: a call to
the wrapped connection's physical `close()` (logged even when that call
raises), or a call to `Pool.returnConnection(Connection)`. -/
inductive REv where
  | closed (c : Conn)
  | returned (c : Conn)
  deriving Repr, DecidableEq

/-- `_WrappedConnection._done` (run on scope exit `__exit__` and on `__del__`):
if `self.Pool` is set, call `Pool.returnConnection(self.Connection)` and clear
it; then clear `self.Connection`.  Returns the new handle, the new pool state
and the release events emitted by this call.  (When `Pool` is set but
`Connection` is already `None` — unreachable for handles produced by
`connect` — Python would pass `None` to `returnConnection`; we leave the pool
untouched.) -/
def wdone (env : Env) (now : Int) (h : Handle) (s : PoolState) :
    Handle × PoolState × List REv :=
  if h.hasPool then
    match h.connection with
    | some c => (⟨false, none⟩, returnConnection env now c s, [REv.returned c])
    | none => (⟨false, none⟩, s, [])
  else
    (⟨false, none⟩, s, [])

/-- `_WrappedConnection.close`: if `self.Connection` is set, call its
physical `close()` — when that call raises, the exception propagates and
NEITHER `self.Connection` nor `self.Pool` is cleared, so the handle stays
active; otherwise `self.Connection` and then `self.Pool` are cleared.  The
pool state is never touched.  Returns the new handle, the pool state, the
calls made, and the exception surfaced to the caller, if any. -/
def wclose (env : Env) (h : Handle) (s : PoolState) :
    Handle × PoolState × List REv × Option PyErr :=
  match h.connection with
  | some c =>
    if env.closeRaises c then (h, s, [REv.closed c], some PyErr.closeError)
    else (⟨false, none⟩, s, [REv.closed c], none)
  | none => (⟨false, none⟩, s, [], none)

/-- The connector object chosen by `_ConnectionPool.__init__`. -/
inductive ChosenConnector where
  | injected
  | psycopg (connstr : String)
  deriving Repr, DecidableEq

/-- Python exceptions raised by `_ConnectionPool.__init__`:
`ValueError("Connector must be provided")`, or the `NotImplementedError`
raised by `MySQLConnector.__init__`. -/
inductive InitError where
  | valueError
  | notImplementedError
  deriving Repr, DecidableEq

/-- `_ConnectionPool.__init__(postgres, mysql, connector)`: an injected
`connector` wins; otherwise `postgres` selects `PsycopgConnector(postgres)`;
otherwise `mysql` selects `MySQLConnector(mysql)` whose constructor raises
`NotImplementedError`; otherwise `ValueError` is raised. -/
def poolInit (postgres mysql : Option String) (connector : Option Unit) :
    Except InitError ChosenConnector :=
  match connector with
  | some _ => Except.ok ChosenConnector.injected
  | none =>
    match postgres with
    | some cs => Except.ok (ChosenConnector.psycopg cs)
    | none =>
      match mysql with
      | some _ => Except.error InitError.notImplementedError
      | none => Except.error InitError.valueError

/-- How many connector sources were supplied to `__init__`. -/
def numSources (postgres mysql : Option String) (connector : Option Unit) : Nat :=
  (if postgres.isSome then 1 else 0) + (if mysql.isSome then 1 else 0) +
    (if connector.isSome then 1 else 0)

/-- One completed pool operation under a fixed environment: a successful
`connect` (with `Connector.connect()` behaving as `openResult`), a
`returnConnection` of an arbitrary connection, a successful `_cleanUp`, or a
`closeAll`. -/
inductive PoolStep (env : Env) : PoolState → PoolState → Prop where
  | connectStep (now : Int) (openResult : Option Conn) (s : PoolState) (r : Conn)
      (s2 : PoolState) (h : connect env openResult now s = Except.ok (r, s2)) :
      PoolStep env s s2
  | returnStep (now : Int) (c : Conn) (s s2 : PoolState)
      (h : returnConnection env now c s = s2) : PoolStep env s s2
  | cleanStep (now T : Int) (s s2 : PoolState)
      (h : cleanUp env now T s = Except.ok s2) : PoolStep env s s2
  | closeAllStep (s s2 : PoolState) (h : closeAll s = s2) : PoolStep env s s2

/-- One completed pool operation, with the environment (the probe and
closed-status verdicts of the outside world) free to differ between steps. -/
inductive PoolStepAny : PoolState → PoolState → Prop where
  | mk (env : Env) (s s2 : PoolState) (h : PoolStep env s s2) : PoolStepAny s s2

/-- One completed pool operation whose environment has the given fixed
closed-status verdict `isC`, while the probe verdicts and close-failure
behaviour remain free to differ between steps. -/
inductive PoolStepIsClosed (isC : Conn → Bool) : PoolState → PoolState → Prop where
  | mk (env : Env) (s s2 : PoolState) (henv : env.isClosed = isC)
      (h : PoolStep env s s2) : PoolStepIsClosed isC s s2

/-- The idle-set invariant claimed by the spec: every idle connection has a
registry entry, and no connection appears twice in the idle list. -/
def IdleInv (s : PoolState) : Prop :=
  (∀ c ∈ s.idle, (alookup s.all c).isSome) ∧ s.idle.Nodup

/-- Strengthened invariant used for the induction: the idle-set invariant,
plus the facts that every idle connection reports not-closed under the fixed
environment and that the registry has no duplicate keys (a `dict` property). -/
def StrongInv (env : Env) (s : PoolState) : Prop :=
  (∀ c ∈ s.idle, (alookup s.all c).isSome) ∧ s.idle.Nodup ∧
    (∀ c ∈ s.idle, env.isClosed c = false) ∧ (s.all.map Prod.fst).Nodup

/-- What the spec says `acquire` does when the last `N` idle connections (the
first `N` popped) all fail `probe`: the probed-dead connections are closed
and deregistered in pop order, and then either the next idle connection (the
last of `front`) is handed out, or, with the idle set exhausted, a fresh
connection is opened and registered.  Modelled from the spec sentence for
claim C3, to be compared with `connect`. -/
def specAcquireAfterFailures (openResult : Option Conn) (now : Int)
    (s : PoolState) (front bad : List Conn) : Except PyErr (Conn × PoolState) :=
  match front.getLast? with
  | some lc =>
    Except.ok (lc, ⟨front.dropLast, bad.reverse.foldl adel s.all,
      s.closedLog ++ bad.reverse⟩)
  | none =>
    match openResult with
    | none => Except.error PyErr.openError
    | some nc =>
      Except.ok (nc, ⟨[], aset (bad.reverse.foldl adel s.all) nc now,
        s.closedLog ++ bad.reverse⟩)

/-! Basic lemmas about the association-list model of the registry dict. -/

theorem alookup_adel_self (m : List (Conn × Int)) (k : Conn) :
    alookup (adel m k) k = none := by
  induction m with
  | nil => rfl
  | cons p rest ih =>
    obtain ⟨a, b⟩ := p
    by_cases h : a = k
    · simpa [adel, h] using ih
    · simpa [adel, alookup, h] using ih

theorem alookup_adel_ne (m : List (Conn × Int)) {x k : Conn} (h : x ≠ k) :
    alookup (adel m k) x = alookup m x := by
  induction m with
  | nil => rfl
  | cons p rest ih =>
    obtain ⟨a, b⟩ := p
    by_cases ha : a = k
    · subst ha
      have hkx : ¬ a = x := fun hh => h (hh.symm)
      simpa [adel, alookup, hkx] using ih
    · by_cases hax : a = x
      · subst hax; simp [adel, alookup, ha]
      · simpa [adel, alookup, ha, hax] using ih

theorem alookup_aset_self (m : List (Conn × Int)) (k : Conn) (v : Int) :
    alookup (aset m k v) k = some v := by
  induction m with
  | nil => simp [aset, alookup]
  | cons p rest ih =>
    obtain ⟨a, b⟩ := p
    by_cases h : a = k
    · simp [aset, alookup, h]
    · simpa [aset, alookup, h] using ih

theorem alookup_aset_ne (m : List (Conn × Int)) (v : Int) {x k : Conn} (h : x ≠ k) :
    alookup (aset m k v) x = alookup m x := by
  induction m with
  | nil =>
    have hkx : ¬ k = x := fun hh => h (hh.symm)
    simp [aset, alookup, hkx]
  | cons p rest ih =>
    obtain ⟨a, b⟩ := p
    by_cases ha : a = k
    · subst ha
      have hkx : ¬ a = x := fun hh => h (hh.symm)
      simp [aset, alookup, hkx]
    · by_cases hax : a = x
      · subst hax; simp [aset, alookup, ha]
      · simpa [aset, alookup, ha, hax] using ih

theorem adel_sublist (m : List (Conn × Int)) (k : Conn) : (adel m k).Sublist m := by
  induction m with
  | nil => simp [adel]
  | cons p rest ih =>
    obtain ⟨a, b⟩ := p
    by_cases h : a = k
    · simpa [adel, h] using ih.cons (a, b)
    · simpa [adel, h] using ih.cons₂ (a, b)

theorem keysNodup_adel (m : List (Conn × Int)) (k : Conn)
    (h : (m.map Prod.fst).Nodup) : ((adel m k).map Prod.fst).Nodup :=
  List.Nodup.sublist ((adel_sublist m k).map Prod.fst) h

theorem alookup_none_iff (m : List (Conn × Int)) (k : Conn) :
    alookup m k = none ↔ k ∉ m.map Prod.fst := by
  induction m with
  | nil => simp [alookup]
  | cons p rest ih =>
    obtain ⟨a, b⟩ := p
    by_cases h : a = k
    · subst h; simp [alookup]
    · have hka : ¬ k = a := fun hh => h (hh.symm)
      simp [alookup, h, hka, ih]

theorem mem_keys_aset (m : List (Conn × Int)) (k : Conn) (v : Int) (x : Conn)
    (h : x ∈ (aset m k v).map Prod.fst) : x ∈ m.map Prod.fst ∨ x = k := by
  induction m with
  | nil => right; simpa [aset] using h
  | cons p rest ih =>
    obtain ⟨a, b⟩ := p
    by_cases hak : a = k
    · subst hak
      rcases (by simpa [aset] using h : x = a ∨ x ∈ rest.map Prod.fst) with h1 | h2
      · left; simp [h1]
      · left; simp [h2]
    · rcases (by simpa [aset, hak] using h :
          x = a ∨ x ∈ (aset rest k v).map Prod.fst) with h1 | h2
      · left; simp [h1]
      · rcases ih h2 with h3 | h4
        · left; simp [h3]
        · right; exact h4

theorem keysNodup_aset (m : List (Conn × Int)) (k : Conn) (v : Int)
    (h : (m.map Prod.fst).Nodup) : ((aset m k v).map Prod.fst).Nodup := by
  induction m with
  | nil => simp [aset]
  | cons p rest ih =>
    obtain ⟨a, b⟩ := p
    simp only [List.map_cons, List.nodup_cons] at h
    by_cases hak : a = k
    · subst hak
      have hred : aset ((a, b) :: rest) a v = (a, v) :: rest := by simp [aset]
      rw [hred]
      simp only [List.map_cons, List.nodup_cons]
      exact ⟨h.1, h.2⟩
    · have hred : aset ((a, b) :: rest) k v = (a, b) :: aset rest k v := by
        simp [aset, hak]
      rw [hred]
      simp only [List.map_cons, List.nodup_cons]
      refine ⟨?_, ih h.2⟩
      intro hmem
      rcases mem_keys_aset rest k v a hmem with h1 | h2
      · exact h.1 h1
      · exact hak h2

theorem adel_of_none (m : List (Conn × Int)) (k : Conn)
    (h : alookup m k = none) : adel m k = m := by
  induction m with
  | nil => rfl
  | cons p rest ih =>
    obtain ⟨a, b⟩ := p
    by_cases hak : a = k
    · subst hak; simp [alookup] at h
    · simp only [alookup, if_neg hak] at h
      simp [adel, hak, ih h]

theorem adel_length (m : List (Conn × Int)) (k : Conn)
    (hn : (m.map Prod.fst).Nodup) (hs : (alookup m k).isSome) :
    (adel m k).length + 1 = m.length := by
  induction m with
  | nil => simp [alookup] at hs
  | cons p rest ih =>
    obtain ⟨a, b⟩ := p
    simp only [List.map_cons, List.nodup_cons] at hn
    by_cases hak : a = k
    · subst hak
      have hnone : alookup rest a = none := (alookup_none_iff rest a).mpr hn.1
      simp [adel, adel_of_none rest a hnone]
    · have hrest : (alookup rest k).isSome := by simpa [alookup, hak] using hs
      have := ih hn.2 hrest
      simp only [adel, if_neg hak, List.length_cons]
      omega

theorem aset_length_fresh (m : List (Conn × Int)) (k : Conn) (v : Int)
    (h : alookup m k = none) : (aset m k v).length = m.length + 1 := by
  induction m with
  | nil => rfl
  | cons p rest ih =>
    obtain ⟨a, b⟩ := p
    by_cases hak : a = k
    · subst hak; simp [alookup] at h
    · simp only [alookup, if_neg hak] at h
      simp [aset, hak, ih h]

theorem foldl_adel_alookup (ds : List Conn) :
    ∀ (m : List (Conn × Int)) (x : Conn),
    alookup (ds.foldl adel m) x = if x ∈ ds then none else alookup m x := by
  induction ds with
  | nil => intro m x; simp
  | cons d rest ih =>
    intro m x
    simp only [List.foldl_cons]
    rw [ih]
    by_cases hx : x ∈ rest
    · simp [hx]
    · by_cases hxd : x = d
      · subst hxd; simp [hx, alookup_adel_self]
      · simp [hx, hxd, alookup_adel_ne m hxd]

theorem foldl_adel_keysNodup (ds : List Conn) :
    ∀ m : List (Conn × Int), (m.map Prod.fst).Nodup →
    ((ds.foldl adel m).map Prod.fst).Nodup := by
  induction ds with
  | nil => intro m h; simpa using h
  | cons d rest ih => intro m h; exact ih _ (keysNodup_adel m d h)

theorem foldl_adel_length (ds : List Conn) :
    ∀ m : List (Conn × Int), ds.Nodup → (∀ d ∈ ds, (alookup m d).isSome) →
    (m.map Prod.fst).Nodup → (ds.foldl adel m).length + ds.length = m.length := by
  induction ds with
  | nil => intro m _ _ _; simp
  | cons d rest ih =>
    intro m hnd hreg hkeys
    simp only [List.foldl_cons, List.length_cons]
    have h1 : (adel m d).length + 1 = m.length :=
      adel_length m d hkeys (hreg d (by simp))
    have h2 : (rest.foldl adel (adel m d)).length + rest.length = (adel m d).length := by
      apply ih
      · exact (List.nodup_cons.mp hnd).2
      · intro x hx
        have hxd : x ≠ d := by
          rintro rfl; exact (List.nodup_cons.mp hnd).1 hx
        rw [alookup_adel_ne m hxd]
        exact hreg x (by simp [hx])
      · exact keysNodup_adel m d hkeys
    omega

/-! Characterizations of the two loops of the pool. -/

theorem cleanUpLoop_spec (env : Env) (now T : Int) (ts : Conn → Int) :
    ∀ (rest : List Conn) (all : List (Conn × Int)) (acc log : List Conn),
    rest.Nodup →
    (∀ c ∈ rest, alookup all c = some (ts c)) →
    (∀ c ∈ rest, env.closeRaises c = false) →
    cleanUpLoop env now T rest all acc log =
      Except.ok ((rest.filter (fun c => decide (ts c < now - T))).foldl adel all,
        acc ++ rest.filter (fun c => !decide (ts c < now - T)),
        log ++ rest.filter (fun c => decide (ts c < now - T))) := by
  intro rest
  induction rest with
  | nil => intro all acc log _ _ _; simp [cleanUpLoop]
  | cons c rest ih =>
    intro all acc log hnd hreg hraise
    have hc : alookup all c = some (ts c) := hreg c (by simp)
    have hnotm : c ∉ rest := (List.nodup_cons.mp hnd).1
    by_cases hst : ts c < now - T
    · have hcr : env.closeRaises c = false := hraise c (by simp)
      have step : cleanUpLoop env now T (c :: rest) all acc log =
          cleanUpLoop env now T rest (adel all c) acc (log ++ [c]) := by
        simp [cleanUpLoop, hc, hst, hcr]
      rw [step, ih (adel all c) acc (log ++ [c]) (List.nodup_cons.mp hnd).2
        (fun x hx => by
          rw [alookup_adel_ne all (by rintro rfl; exact hnotm hx)]
          exact hreg x (by simp [hx]))
        (fun x hx => hraise x (by simp [hx]))]
      simp [List.filter_cons, hst, List.append_assoc]
    · have step : cleanUpLoop env now T (c :: rest) all acc log =
          cleanUpLoop env now T rest all (acc ++ [c]) log := by
        simp [cleanUpLoop, hc, hst]
      rw [step, ih all (acc ++ [c]) log (List.nodup_cons.mp hnd).2
        (fun x hx => hreg x (by simp [hx]))
        (fun x hx => hraise x (by simp [hx]))]
      simp [List.filter_cons, hst, List.append_assoc]

theorem cleanUpLoop_ok_inv (env : Env) (now T : Int) :
    ∀ (rest : List Conn) (all : List (Conn × Int)) (acc log : List Conn)
      (all2 : List (Conn × Int)) (idle2 log2 : List Conn),
    cleanUpLoop env now T rest all acc log = Except.ok (all2, idle2, log2) →
    rest.Nodup →
    ∃ K : List Conn, idle2 = acc ++ K ∧ K.Sublist rest ∧
      (∀ x : Conn, x ∉ rest → alookup all2 x = alookup all x) ∧
      (∀ x ∈ K, alookup all2 x = alookup all x) ∧
      ((all.map Prod.fst).Nodup → (all2.map Prod.fst).Nodup) := by
  intro rest
  induction rest with
  | nil =>
    intro all acc log all2 idle2 log2 h _
    simp only [cleanUpLoop, Except.ok.injEq, Prod.mk.injEq] at h
    obtain ⟨rfl, rfl, rfl⟩ := h
    exact ⟨[], by simp, List.Sublist.refl [], fun x _ => rfl, fun x hx => by simp at hx,
      fun hk => hk⟩
  | cons c rest ih =>
    intro all acc log all2 idle2 log2 h hnd
    have hnotm : c ∉ rest := (List.nodup_cons.mp hnd).1
    cases hlk : alookup all c with
    | none => simp [cleanUpLoop, hlk] at h
    | some t =>
      by_cases hst : t < now - T
      · by_cases hcr : env.closeRaises c = true
        · simp [cleanUpLoop, hlk, hst, hcr] at h
        · have step : cleanUpLoop env now T (c :: rest) all acc log =
              cleanUpLoop env now T rest (adel all c) acc (log ++ [c]) := by
            simp [cleanUpLoop, hlk, hst, hcr]
          rw [step] at h
          obtain ⟨K, hK1, hK2, hK3, hK4, hK5⟩ :=
            ih (adel all c) acc (log ++ [c]) all2 idle2 log2 h (List.nodup_cons.mp hnd).2
          refine ⟨K, hK1, hK2.cons c, ?_, ?_, ?_⟩
          · intro x hx
            have hxr : x ∉ rest := fun hh => hx (by simp [hh])
            have hxc : x ≠ c := fun hh => hx (by simp [hh])
            rw [hK3 x hxr, alookup_adel_ne all hxc]
          · intro x hx
            have hxc : x ≠ c := by rintro rfl; exact hnotm (hK2.mem hx)
            rw [hK4 x hx, alookup_adel_ne all hxc]
          · intro hk
            exact hK5 (keysNodup_adel all c hk)
      · have step : cleanUpLoop env now T (c :: rest) all acc log =
            cleanUpLoop env now T rest all (acc ++ [c]) log := by
          simp [cleanUpLoop, hlk, hst]
        rw [step] at h
        obtain ⟨K, hK1, hK2, hK3, hK4, hK5⟩ :=
          ih all (acc ++ [c]) log all2 idle2 log2 h (List.nodup_cons.mp hnd).2
        refine ⟨c :: K, by simp [hK1], hK2.cons₂ c, ?_, ?_, hK5⟩
        · intro x hx
          exact hK3 x (fun hh => hx (by simp [hh]))
        · intro x hx
          rcases List.mem_cons.mp hx with rfl | hx2
          · exact hK3 x hnotm
          · exact hK4 x hx2

theorem connectAuxRev_skip (env : Env) :
    ∀ (dead tl : List Conn) (all : List (Conn × Int)) (log : List Conn),
    dead.Nodup → (∀ c ∈ dead, env.probe c = false) →
    (∀ c ∈ dead, env.closeRaises c = false) →
    (∀ c ∈ dead, (alookup all c).isSome) →
    connectAuxRev env (dead ++ tl) all log =
      connectAuxRev env tl (dead.foldl adel all) (log ++ dead) := by
  intro dead
  induction dead with
  | nil => intro tl all log _ _ _ _; simp
  | cons c rest ih =>
    intro tl all log hnd hp hcr hreg
    have hnotm : c ∉ rest := (List.nodup_cons.mp hnd).1
    have hpc : env.probe c = false := hp c (by simp)
    have hcrc : env.closeRaises c = false := hcr c (by simp)
    obtain ⟨t, ht⟩ := Option.isSome_iff_exists.mp (hreg c (by simp))
    have step : connectAuxRev env ((c :: rest) ++ tl) all log =
        connectAuxRev env (rest ++ tl) (adel all c) (log ++ [c]) := by
      simp [connectAuxRev, hpc, hcrc, ht]
    rw [step, ih tl (adel all c) (log ++ [c]) (List.nodup_cons.mp hnd).2
      (fun x hx => hp x (by simp [hx]))
      (fun x hx => hcr x (by simp [hx]))
      (fun x hx => by
        rw [alookup_adel_ne all (by rintro rfl; exact hnotm hx)]
        exact hreg x (by simp [hx]))]
    simp [List.append_assoc]

theorem connectAuxRev_ok_inv (env : Env) :
    ∀ (l : List Conn) (all : List (Conn × Int)) (log : List Conn)
      (res : Option Conn) (rest : List Conn) (all2 : List (Conn × Int)) (log2 : List Conn),
    connectAuxRev env l all log = Except.ok (res, rest, all2, log2) →
    ∃ dead : List Conn, all2 = dead.foldl adel all ∧ log2 = log ++ dead ∧
      (∀ d ∈ dead, env.probe d = false) ∧
      ((∃ c, res = some c ∧ env.probe c = true ∧ l = dead ++ c :: rest) ∨
        (res = none ∧ rest = [] ∧ l = dead)) := by
  intro l
  induction l with
  | nil =>
    intro all log res rest all2 log2 h
    simp only [connectAuxRev, Except.ok.injEq, Prod.mk.injEq] at h
    obtain ⟨rfl, rfl, rfl, rfl⟩ := h
    exact ⟨[], by simp, by simp, fun d hd => by simp at hd, Or.inr ⟨rfl, rfl, rfl⟩⟩
  | cons c t ih =>
    intro all log res rest all2 log2 h
    by_cases hpc : env.probe c = true
    · simp only [connectAuxRev, if_pos hpc, Except.ok.injEq, Prod.mk.injEq] at h
      obtain ⟨rfl, rfl, rfl, rfl⟩ := h
      exact ⟨[], by simp, by simp, fun d hd => by simp at hd,
        Or.inl ⟨c, rfl, hpc, by simp⟩⟩
    · by_cases hcrc : env.closeRaises c = true
      · simp [connectAuxRev, hpc, hcrc] at h
      · cases hlk : alookup all c with
        | none => simp [connectAuxRev, hpc, hcrc, hlk] at h
        | some tv =>
          have step : connectAuxRev env (c :: t) all log =
              connectAuxRev env t (adel all c) (log ++ [c]) := by
            simp [connectAuxRev, hpc, hcrc, hlk]
          rw [step] at h
          obtain ⟨dead, hd1, hd2, hd3, hd4⟩ := ih (adel all c) (log ++ [c]) res rest all2 log2 h
          refine ⟨c :: dead, by simpa [List.foldl_cons] using hd1,
            by simpa [List.append_assoc] using hd2, ?_, ?_⟩
          · intro d hd
            rcases List.mem_cons.mp hd with rfl | hd2m
            · simpa using hpc
            · exact hd3 d hd2m
          · rcases hd4 with ⟨c2, hr, hp2, hl⟩ | ⟨hr, hrest, hl⟩
            · exact Or.inl ⟨c2, hr, hp2, by simp [hl]⟩
            · exact Or.inr ⟨hr, hrest, by simp [hl]⟩

/-! Preservation of the strengthened invariant by every completed operation. -/

theorem strongInv_init (env : Env) : StrongInv env poolInitState := by
  refine ⟨?_, ?_, ?_, ?_⟩ <;> simp [poolInitState]

theorem returnConnection_strongInv (env : Env) (now : Int) (c : Conn) (s : PoolState)
    (h : StrongInv env s) : StrongInv env (returnConnection env now c s) := by
  obtain ⟨hreg, hnd, hcl, hkeys⟩ := h
  by_cases hc : env.isClosed c = true
  · have hcid : c ∉ s.idle := by
      intro hm
      rw [hcl c hm] at hc
      exact Bool.false_ne_true hc
    simp only [returnConnection, if_pos hc]
    refine ⟨?_, hnd, hcl, keysNodup_adel s.all c hkeys⟩
    intro x hx
    have hxc : x ≠ c := by rintro rfl; exact hcid hx
    rw [alookup_adel_ne s.all hxc]
    exact hreg x hx
  · have hc2 : env.isClosed c = false := by simpa using hc
    by_cases hm : c ∈ s.idle
    · simp only [returnConnection, hc2, Bool.false_eq_true, if_false, if_pos hm]
      exact ⟨hreg, hnd, hcl, hkeys⟩
    · simp only [returnConnection, hc2, Bool.false_eq_true, if_false, if_neg hm]
      refine ⟨?_, ?_, ?_, keysNodup_aset s.all c now hkeys⟩
      · intro x hx
        by_cases hxc : x = c
        · subst hxc; simp [alookup_aset_self]
        · rw [alookup_aset_ne s.all now hxc]
          have hxid : x ∈ s.idle := by
            rcases List.mem_append.mp hx with h1 | h2
            · exact h1
            · exact absurd (List.mem_singleton.mp h2) hxc
          exact hreg x hxid
      · simp [List.nodup_append, hnd, hm]
      · intro x hx
        rcases List.mem_append.mp hx with h1 | h2
        · exact hcl x h1
        · rw [List.mem_singleton.mp h2]; exact hc2

theorem cleanUp_strongInv (env : Env) (now T : Int) (s s2 : PoolState)
    (h : cleanUp env now T s = Except.ok s2) (hs : StrongInv env s) :
    StrongInv env s2 := by
  obtain ⟨hreg, hnd, hcl, hkeys⟩ := hs
  unfold cleanUp at h
  cases hloop : cleanUpLoop env now T s.idle s.all [] s.closedLog with
  | error e => rw [hloop] at h; cases h
  | ok q =>
    obtain ⟨all2, idle2, log2⟩ := q
    rw [hloop] at h
    injection h with h2
    subst h2
    obtain ⟨K, hK1, hK2, hK3, hK4, hK5⟩ :=
      cleanUpLoop_ok_inv env now T s.idle s.all [] s.closedLog all2 idle2 log2 hloop hnd
    have hKidle : idle2 = K := by simpa using hK1
    subst hKidle
    refine ⟨?_, List.Nodup.sublist hK2 hnd, ?_, hK5 hkeys⟩
    · intro x hx
      rw [hK4 x hx]
      exact hreg x (hK2.subset hx)
    · intro x hx
      exact hcl x (hK2.subset hx)

theorem connect_strongInv (env : Env) (o : Option Conn) (now : Int) (s : PoolState)
    (r : Conn) (s2 : PoolState) (h : connect env o now s = Except.ok (r, s2))
    (hs : StrongInv env s) : StrongInv env s2 := by
  obtain ⟨hreg, hnd, hcl, hkeys⟩ := hs
  unfold connect at h
  cases haux : connectAuxRev env s.idle.reverse s.all s.closedLog with
  | error e => rw [haux] at h; cases h
  | ok q =>
    obtain ⟨res, restRev, all2, log2⟩ := q
    rw [haux] at h
    obtain ⟨dead, hd1, hd2, hd3, hd4⟩ := connectAuxRev_ok_inv env _ _ _ _ _ _ _ haux
    cases res with
    | some cc =>
      injection h with h2
      injection h2 with h3 h4
      subst h4
      rcases hd4 with ⟨c2, hrq, hp2, hl⟩ | ⟨hq, _, _⟩
      · have hcc : cc = c2 := by injection hrq
        subst hcc
        have hidle : s.idle = restRev.reverse ++ [cc] ++ dead.reverse := by
          have hrr := congrArg List.reverse hl
          simpa [List.reverse_append, List.append_assoc] using hrr
        have hnd2 : (restRev.reverse ++ [cc] ++ dead.reverse).Nodup := hidle ▸ hnd
        have hdisj := (List.nodup_append.mp hnd2).2.2
        refine ⟨?_, ?_, ?_, ?_⟩
        · intro x hx
          have hxid : x ∈ s.idle := by rw [hidle]; simp [hx]
          have hxdead : x ∉ dead := by
            intro hxd
            have hx2 : x ∈ restRev.reverse ++ [cc] := List.mem_append.mpr (Or.inl hx)
            exact hdisj hx2 (List.mem_reverse.mpr hxd)
          rw [hd1, foldl_adel_alookup dead s.all x, if_neg hxdead]
          exact hreg x hxid
        · exact List.Nodup.of_append_left (List.nodup_append.mp hnd2).1
        · intro x hx
          have hxid : x ∈ s.idle := by rw [hidle]; simp [hx]
          exact hcl x hxid
        · rw [hd1]
          exact foldl_adel_keysNodup dead s.all hkeys
      · cases hq
    | none =>
      rcases hd4 with ⟨c2, hrq, _, _⟩ | ⟨_, hrest, hl⟩
      · cases hrq
      · subst hrest
        cases o with
        | none => cases h
        | some nc =>
          injection h with h2
          injection h2 with h3 h4
          subst h4
          refine ⟨?_, ?_, ?_, ?_⟩
          · intro x hx; simp at hx
          · simp
          · intro x hx; simp at hx
          · simp only [PoolState.mk.injEq]
            rw [hd1]
            exact keysNodup_aset _ nc now (foldl_adel_keysNodup dead s.all hkeys)

theorem closeAll_strongInv (env : Env) (s : PoolState) :
    StrongInv env (closeAll s) := by
  refine ⟨?_, ?_, ?_, ?_⟩ <;> simp [closeAll]

theorem poolStep_strongInv (env : Env) (s s2 : PoolState) (h : PoolStep env s s2)
    (hs : StrongInv env s) : StrongInv env s2 := by
  cases h with
  | connectStep now o s r s2 hh => exact connect_strongInv env o now s r s2 hh hs
  | returnStep now c s s2 hh => exact hh ▸ returnConnection_strongInv env now c s hs
  | cleanStep now T s s2 hh => exact cleanUp_strongInv env now T s s2 hh hs
  | closeAllStep s s2 hh => exact hh ▸ closeAll_strongInv env s

theorem poolStepIsClosed_inv (isC : Conn → Bool) (s s2 : PoolState)
    (h : PoolStepIsClosed isC s s2)
    (hs : (∀ c ∈ s.idle, (alookup s.all c).isSome) ∧ s.idle.Nodup ∧
      (∀ c ∈ s.idle, isC c = false) ∧ (s.all.map Prod.fst).Nodup) :
    (∀ c ∈ s2.idle, (alookup s2.all c).isSome) ∧ s2.idle.Nodup ∧
      (∀ c ∈ s2.idle, isC c = false) ∧ (s2.all.map Prod.fst).Nodup := by
  cases h with
  | mk env s s2 henv hstep =>
    subst henv
    exact poolStep_strongInv env s s2 hstep hs

/-! Concrete environments for witnesses and counterexamples. -/

/-- An environment in which every connection probes alive, none reports
closed, and no close raises. -/
def envLive : Env := ⟨fun _ => true, fun _ => false, fun _ => false⟩

/-- An environment in which every connection reports closed. -/
def envAllClosed : Env := ⟨fun _ => true, fun _ => true, fun _ => false⟩

/-- An environment in which only connection 5 probes alive. -/
def envProbe5 : Env := ⟨fun c => decide (c = 5), fun _ => false, fun _ => false⟩

/-- An environment in which connection 3's close() raises. -/
def envRaise3 : Env := ⟨fun _ => true, fun _ => false, fun c => decide (c = 3)⟩

/-! The claims. -/

/-- C1: for a pool whose idle connections all have registry entries with
strictly increasing timestamps along the idle list (which forces the idle
connections to be pairwise distinct) and whose closes do not raise, one
eviction pass `_cleanUp(T)` at time `now` returns exactly: the idle list
restricted, in its original relative order, to the connections with
`now - t ≤ T`; the registry with the entries of the stale connections
(`now - t > T`) deleted in order; and the ghost close log extended by exactly
the stale connections, in order.  (`foldl_adel_alookup` shows the fold
deletes exactly the evicted keys.) -/
theorem C1_cleanUp_evicts_exactly_stale (env : Env) (now T : Int) (s : PoolState)
    (ts : Conn → Int)
    (hreg : ∀ c ∈ s.idle, alookup s.all c = some (ts c))
    (hsorted : (s.idle.map ts).Chain' (fun a b => a < b))
    (hraise : ∀ c ∈ s.idle, env.closeRaises c = false) :
    cleanUp env now T s =
      Except.ok ⟨s.idle.filter (fun c => !decide (now - ts c > T)),
        (s.idle.filter (fun c => decide (now - ts c > T))).foldl adel s.all,
        s.closedLog ++ s.idle.filter (fun c => decide (now - ts c > T))⟩ := by
  have hnd : s.idle.Nodup := by
    have hpw : (s.idle.map ts).Pairwise (fun a b => a < b) :=
      List.chain'_iff_pairwise.mp hsorted
    have hpw2 : s.idle.Pairwise (fun a b => ts a < ts b) := List.pairwise_map.mp hpw
    exact hpw2.imp (fun hab he => absurd (he ▸ hab) (lt_irrefl _))
  have hstale : s.idle.filter (fun c => decide (now - ts c > T)) =
      s.idle.filter (fun c => decide (ts c < now - T)) := by
    apply List.filter_congr
    intro x _
    exact decide_eq_decide.mpr (by omega)
  have hkeep : s.idle.filter (fun c => !decide (now - ts c > T)) =
      s.idle.filter (fun c => !decide (ts c < now - T)) := by
    apply List.filter_congr
    intro x _
    have hdd : decide (now - ts x > T) = decide (ts x < now - T) :=
      decide_eq_decide.mpr (by omega)
    rw [hdd]
  rw [hstale, hkeep]
  unfold cleanUp
  rw [cleanUpLoop_spec env now T ts s.idle s.all [] s.closedLog hnd hreg hraise]
  simp

/-- Witness for C1: idle connections 1 and 2 with timestamps 0 and 10, at
time 12 with timeout 5 — connection 1 is evicted and closed, connection 2
survives. -/
theorem C1_cleanUp_evicts_exactly_stale_witness :
    cleanUp envLive 12 5 ⟨[1, 2], [(1, 0), (2, 10)], []⟩ =
      Except.ok ⟨[2], [(2, 10)], [1]⟩ := by
  have h := C1_cleanUp_evicts_exactly_stale envLive 12 5 ⟨[1, 2], [(1, 0), (2, 10)], []⟩
    (fun c => if c = 1 then 0 else 10) (by decide)
    (by norm_num [List.chain'_cons]) (by decide)
  exact h

/-- C2 counterexample: the claim says a closed connection is absent from the
idle set after returnConnection regardless of the prior pool state, but a
closed connection that is already in the idle set stays there — only the
registry entry is deleted. -/
theorem C2_counterexample :
    envAllClosed.isClosed 0 = true ∧
      (returnConnection envAllClosed 0 0 ⟨[0], [(0, 0)], []⟩).idle = [0] :=
  ⟨rfl, rfl⟩

/-- C2 amended: for a closed connection, returnConnection deletes the registry
entry and leaves the idle set exactly as it was — so it never adds a closed
connection to the idle set, but neither does it remove one already there. -/
theorem C2_return_closed_deletes_registry (env : Env) (now : Int) (c : Conn)
    (s : PoolState) (hclosed : env.isClosed c = true) :
    alookup (returnConnection env now c s).all c = none ∧
      (returnConnection env now c s).idle = s.idle := by
  constructor
  · simp only [returnConnection, if_pos hclosed]
    exact alookup_adel_self s.all c
  · simp [returnConnection, if_pos hclosed]

/-- Witness for the amended C2 at a concrete closed connection. -/
theorem C2_return_closed_deletes_registry_witness :
    alookup (returnConnection envAllClosed 0 7 ⟨[], [(7, 1)], []⟩).all 7 = none ∧
      (returnConnection envAllClosed 0 7 ⟨[], [(7, 1)], []⟩).idle = [] :=
  C2_return_closed_deletes_registry envAllClosed 0 7 ⟨[], [(7, 1)], []⟩ rfl

/-- C3: when the idle list splits as `front ++ bad` and every connection in
`bad` (the first candidates popped, since `pop()` takes from the right) fails
probe, `connect` closes and deregisters exactly the `bad` connections in pop
order, and then behaves as the spec describes (`specAcquireAfterFailures`):
it hands out the last connection of `front` if there is one and it probes
alive, and otherwise opens a brand-new connection; the registry shrinks by
exactly `bad.length` before the new connection (if any) is counted. -/
theorem C3_acquire_discards_failed_probes (env : Env) (openResult : Option Conn)
    (now : Int) (s : PoolState) (front bad : List Conn)
    (hsplit : s.idle = front ++ bad)
    (hnodup : s.idle.Nodup)
    (hbadprobe : ∀ c ∈ bad, env.probe c = false)
    (hbadraise : ∀ c ∈ bad, env.closeRaises c = false)
    (hbadreg : ∀ c ∈ bad, (alookup s.all c).isSome)
    (hlast : ∀ lc, front.getLast? = some lc → env.probe lc = true)
    (hkeys : (s.all.map Prod.fst).Nodup) :
    connect env openResult now s = specAcquireAfterFailures openResult now s front bad ∧
      (bad.reverse.foldl adel s.all).length + bad.length = s.all.length := by
  have hbnd : bad.reverse.Nodup := by
    rw [List.nodup_reverse]
    exact List.Nodup.of_append_right (hsplit ▸ hnodup)
  have hbp : ∀ c ∈ bad.reverse, env.probe c = false := fun c hc =>
    hbadprobe c (List.mem_reverse.mp hc)
  have hbr : ∀ c ∈ bad.reverse, env.closeRaises c = false := fun c hc =>
    hbadraise c (List.mem_reverse.mp hc)
  have hbg : ∀ c ∈ bad.reverse, (alookup s.all c).isSome := fun c hc =>
    hbadreg c (List.mem_reverse.mp hc)
  have hrev : s.idle.reverse = bad.reverse ++ front.reverse := by
    rw [hsplit, List.reverse_append]
  have hskip := connectAuxRev_skip env bad.reverse front.reverse s.all s.closedLog
    hbnd hbp hbr hbg
  constructor
  · unfold connect
    rw [hrev, hskip]
    rcases List.eq_nil_or_concat front with hfe | ⟨fr, lc, hfc⟩
    · subst hfe
      simp only [List.reverse_nil, connectAuxRev, specAcquireAfterFailures]
      cases openResult with
      | none => rfl
      | some nc => rfl
    · rw [List.concat_eq_append] at hfc
      subst hfc
      have hplc : env.probe lc = true := hlast lc (List.getLast?_concat fr)
      have hfrev : (fr ++ [lc]).reverse = lc :: fr.reverse := by
        simp [List.reverse_append]
      rw [hfrev]
      simp only [connectAuxRev, if_pos hplc, specAcquireAfterFailures,
        List.getLast?_concat, List.dropLast_concat, List.reverse_reverse]
  · have := foldl_adel_length bad.reverse s.all hbnd hbg hkeys
    simpa using this

/-- Witness for C3: idle [5, 9]; 9 is popped first and fails probe, so it is
closed and deregistered; 5 then probes alive and is handed out. -/
theorem C3_acquire_discards_failed_probes_witness :
    connect envProbe5 (some 99) 0 ⟨[5, 9], [(5, 0), (9, 0)], []⟩ =
        specAcquireAfterFailures (some 99) 0 ⟨[5, 9], [(5, 0), (9, 0)], []⟩ [5] [9] ∧
      (([9] : List Conn).reverse.foldl adel [(5, 0), (9, 0)]).length +
          ([9] : List Conn).length = ([(5, 0), (9, 0)] : List (Conn × Int)).length := by
  have h := C3_acquire_discards_failed_probes envProbe5 (some 99) 0
    ⟨[5, 9], [(5, 0), (9, 0)], []⟩ [5] [9] rfl (by decide) (by decide) (by decide)
    (by decide)
    (by intro lc hlc
        have h5 : lc = 5 := by
          have : some (5 : Conn) = some lc := hlc
          injection this with h2
          exact h2.symm
        subst h5
        rfl)
    (by decide)
  exact h

/-- C4 counterexample: after an explicit handle close of connection 7 (whose
physical close returns normally, as the event log with no surfaced exception
shows), the pool's registry still holds 7's entry with its old timestamp —
the claim says the registry entry is deleted. -/
theorem C4_counterexample :
    (wclose envLive (wrapConnection 7) ⟨[], [(7, 5)], []⟩).2.2.1 = [REv.closed 7] ∧
      (wclose envLive (wrapConnection 7) ⟨[], [(7, 5)], []⟩).2.2.2 = none ∧
      alookup ((wclose envLive (wrapConnection 7) ⟨[], [(7, 5)], []⟩).2.1).all 7 =
        some 5 :=
  ⟨rfl, rfl, rfl⟩

/-- C4 amended: when the wrapped connection's physical close() returns
normally, an explicit close() on an active handle closes it exactly once and
clears the handle, so the connection is never returned to the pool (a later
scope exit emits nothing) — but the pool state, including the connection's
registry entry, is left entirely unchanged; the entry is not deleted. -/
theorem C4_close_destroys_but_keeps_registry (env : Env) (now : Int) (c : Conn)
    (s : PoolState) (hnr : env.closeRaises c = false) :
    wclose env (wrapConnection c) s = (⟨false, none⟩, s, [REv.closed c], none) ∧
      (wdone env now (wclose env (wrapConnection c) s).1
        (wclose env (wrapConnection c) s).2.1).2.2 = [] := by
  have h1 : wclose env (wrapConnection c) s = (⟨false, none⟩, s, [REv.closed c], none) := by
    simp [wclose, wrapConnection, hnr]
  refine ⟨h1, ?_⟩
  rw [h1]
  rfl

/-- Witness for the amended C4: connection 7, registered at timestamp 5,
close() returning normally — the registry entry survives the handle close. -/
theorem C4_close_destroys_but_keeps_registry_witness :
    wclose envLive (wrapConnection 7) ⟨[], [(7, 5)], []⟩ =
        (⟨false, none⟩, ⟨[], [(7, 5)], []⟩, [REv.closed 7], none) ∧
      (wdone envLive 0 (wclose envLive (wrapConnection 7) ⟨[], [(7, 5)], []⟩).1
        (wclose envLive (wrapConnection 7) ⟨[], [(7, 5)], []⟩).2.1).2.2 = [] :=
  C4_close_destroys_but_keeps_registry envLive 0 7 ⟨[], [(7, 5)], []⟩ rfl

/-- C5 counterexample: the claim quantifies over arbitrary operation
sequences, under which a connection's closed-status may differ between calls
(as happens when the backend tears a connection down).  Returning connection
0 while it reports open and then again once it reports closed reaches a state
where 0 is in the idle set with no registry entry. -/
theorem C5_counterexample :
    Relation.ReflTransGen PoolStepAny poolInitState ⟨[0], [], []⟩ ∧
      ¬ IdleInv ⟨[0], [], []⟩ := by
  constructor
  · have h1 : PoolStepAny poolInitState ⟨[0], [(0, 0)], []⟩ :=
      PoolStepAny.mk envLive _ _ (PoolStep.returnStep 0 0 poolInitState _ rfl)
    have h2 : PoolStepAny ⟨[0], [(0, 0)], []⟩ ⟨[0], [], []⟩ :=
      PoolStepAny.mk envAllClosed _ _ (PoolStep.returnStep 0 0 _ _ rfl)
    exact Relation.ReflTransGen.tail
      (Relation.ReflTransGen.tail Relation.ReflTransGen.refl h1) h2
  · intro h
    have hmem := h.1 0 (by simp)
    simp [alookup] at hmem

/-- C5 amended: when the connector's closed-status verdict for each
connection is fixed across the whole operation sequence — the probe verdicts
and close-failure behaviour may still differ from step to step — every state
reachable from a fresh pool by completed connect / returnConnection /
_cleanUp / closeAll operations satisfies the idle-set invariant: every idle
connection is registered and no connection appears twice in the idle list. -/
theorem C5_invariant_fixed_isClosed (isC : Conn → Bool) (s : PoolState)
    (h : Relation.ReflTransGen (PoolStepIsClosed isC) poolInitState s) : IdleInv s := by
  suffices hs : (∀ c ∈ s.idle, (alookup s.all c).isSome) ∧ s.idle.Nodup ∧
      (∀ c ∈ s.idle, isC c = false) ∧ (s.all.map Prod.fst).Nodup from ⟨hs.1, hs.2.1⟩
  induction h with
  | refl =>
    refine ⟨?_, ?_, ?_, ?_⟩ <;> simp [poolInitState]
  | tail hsteps hstep ih => exact poolStepIsClosed_inv isC _ _ hstep ih

/-- Witness for the amended C5: a three-step sequence under varying
environments with the same closed-status verdict — return connection 0 (all
probes alive), acquire under an environment where 0 fails probe so it is
discarded and fresh connection 9 is opened, then return 9. -/
theorem C5_invariant_fixed_isClosed_witness : IdleInv ⟨[9], [(9, 5)], [0]⟩ :=
  C5_invariant_fixed_isClosed (fun _ => false) ⟨[9], [(9, 5)], [0]⟩
    (Relation.ReflTransGen.tail
      (Relation.ReflTransGen.tail
        (Relation.ReflTransGen.tail Relation.ReflTransGen.refl
          (PoolStepIsClosed.mk envLive poolInitState ⟨[0], [(0, 0)], []⟩ rfl
            (PoolStep.returnStep 0 0 poolInitState ⟨[0], [(0, 0)], []⟩ rfl)))
        (PoolStepIsClosed.mk envProbe5 ⟨[0], [(0, 0)], []⟩ ⟨[], [(9, 1)], [0]⟩ rfl
          (PoolStep.connectStep 1 (some 9) ⟨[0], [(0, 0)], []⟩ 9 ⟨[], [(9, 1)], [0]⟩ rfl)))
      (PoolStepIsClosed.mk envLive ⟨[], [(9, 1)], [0]⟩ ⟨[9], [(9, 5)], [0]⟩ rfl
        (PoolStep.returnStep 5 9 ⟨[], [(9, 1)], [0]⟩ ⟨[9], [(9, 5)], [0]⟩ rfl)))

/-- C6 counterexample: when connection 3's physical close() raises, the
explicit close() call invokes the underlying close but leaves the handle
active (Connection and Pool still set, exception surfaced), and the
subsequent scope exit performs a SECOND underlying release — it returns 3 to
the pool, which places it in the idle set — so the two triggers perform two
underlying close-or-return calls and the second trigger is not a no-op,
contradicting the claim. -/
theorem C6_counterexample :
    wclose envRaise3 (wrapConnection 3) ⟨[], [(3, 0)], []⟩ =
        (wrapConnection 3, ⟨[], [(3, 0)], []⟩, [REv.closed 3], some PyErr.closeError) ∧
      wdone envRaise3 7 (wrapConnection 3) ⟨[], [(3, 0)], []⟩ =
        (⟨false, none⟩, ⟨[3], [(3, 7)], []⟩, [REv.returned 3]) :=
  ⟨rfl, rfl⟩

/-- C6 amended: provided the wrapped connection's physical close() returns
normally, releasing an active handle twice in either order performs exactly
one underlying close-or-return.  Explicit close() makes only the physical
close call and a subsequent scope exit leaves handle and pool untouched and
emits nothing; scope exit makes only the return call and a subsequent
close() likewise does nothing.  When close() raises, the handle stays active
and a later scope exit performs a second release (`C6_counterexample`). -/
theorem C6_double_release_once (env : Env) (now : Int) (c : Conn) (s : PoolState)
    (hnr : env.closeRaises c = false) :
    ((wclose env (wrapConnection c) s).2.2.1 = [REv.closed c] ∧
      (wclose env (wrapConnection c) s).2.2.2 = none ∧
      wdone env now (wclose env (wrapConnection c) s).1
          (wclose env (wrapConnection c) s).2.1 =
        ((wclose env (wrapConnection c) s).1,
          (wclose env (wrapConnection c) s).2.1, [])) ∧
    ((wdone env now (wrapConnection c) s).2.2 = [REv.returned c] ∧
      wclose env (wdone env now (wrapConnection c) s).1
          (wdone env now (wrapConnection c) s).2.1 =
        ((wdone env now (wrapConnection c) s).1,
          (wdone env now (wrapConnection c) s).2.1, [], none)) := by
  have h1 : wclose env (wrapConnection c) s =
      (⟨false, none⟩, s, [REv.closed c], none) := by
    simp [wclose, wrapConnection, hnr]
  refine ⟨⟨?_, ?_, ?_⟩, rfl, rfl⟩
  · rw [h1]
  · rw [h1]
  · rw [h1]
    rfl

/-- Witness for the amended C6: connection 2, whose close() returns normally;
both release orders make exactly one underlying call. -/
theorem C6_double_release_once_witness :
    ((wclose envLive (wrapConnection 2) ⟨[], [(2, 0)], []⟩).2.2.1 = [REv.closed 2] ∧
      (wclose envLive (wrapConnection 2) ⟨[], [(2, 0)], []⟩).2.2.2 = none ∧
      wdone envLive 4 (wclose envLive (wrapConnection 2) ⟨[], [(2, 0)], []⟩).1
          (wclose envLive (wrapConnection 2) ⟨[], [(2, 0)], []⟩).2.1 =
        ((wclose envLive (wrapConnection 2) ⟨[], [(2, 0)], []⟩).1,
          (wclose envLive (wrapConnection 2) ⟨[], [(2, 0)], []⟩).2.1, [])) ∧
    ((wdone envLive 4 (wrapConnection 2) ⟨[], [(2, 0)], []⟩).2.2 = [REv.returned 2] ∧
      wclose envLive (wdone envLive 4 (wrapConnection 2) ⟨[], [(2, 0)], []⟩).1
          (wdone envLive 4 (wrapConnection 2) ⟨[], [(2, 0)], []⟩).2.1 =
        ((wdone envLive 4 (wrapConnection 2) ⟨[], [(2, 0)], []⟩).1,
          (wdone envLive 4 (wrapConnection 2) ⟨[], [(2, 0)], []⟩).2.1, [], none)) :=
  C6_double_release_once envLive 4 2 ⟨[], [(2, 0)], []⟩ rfl

/-- C7 counterexample: an exception raised by a stale idle connection's
close() during an eviction pass propagates out of _cleanUp — there is no
try/except around `c.close()` — while the claim says every such failure is
swallowed. -/
theorem C7_counterexample :
    cleanUp envRaise3 100 10 ⟨[3], [(3, 0)], []⟩ = Except.error PyErr.closeError :=
  rfl

/-- C7 amended: probe failures cannot raise (probe is total and boolean,
matching PsycopgConnector.probe's internal try/except), but close() failures
are not swallowed: an eviction pass over a well-formed idle set completes
without error exactly when no idle connection's close raises — proved here in
the success direction, with `C7_counterexample` showing the propagation. -/
theorem C7_cleanUp_ok_when_close_never_raises (env : Env) (now T : Int)
    (s : PoolState) (hnd : s.idle.Nodup)
    (hreg : ∀ c ∈ s.idle, (alookup s.all c).isSome)
    (hraise : ∀ c ∈ s.idle, env.closeRaises c = false) :
    cleanUpOk (cleanUp env now T s) = true := by
  have hreg2 : ∀ c ∈ s.idle, alookup s.all c = some ((alookup s.all c).getD 0) := by
    intro c hc
    have hsome := hreg c hc
    cases hlk : alookup s.all c with
    | none => rw [hlk] at hsome; simp at hsome
    | some v => simp
  unfold cleanUp
  rw [cleanUpLoop_spec env now T (fun c => (alookup s.all c).getD 0) s.idle s.all []
    s.closedLog hnd hreg2 hraise]
  rfl

/-- Witness for the amended C7: a stale connection whose close returns
normally is evicted without an error. -/
theorem C7_cleanUp_ok_when_close_never_raises_witness :
    cleanUpOk (cleanUp envLive 100 10 ⟨[3], [(3, 0)], []⟩) = true :=
  C7_cleanUp_ok_when_close_never_raises envLive 100 10 ⟨[3], [(3, 0)], []⟩
    (by decide) (by decide) (by decide)

/-- C8: acquiring from a pool whose idle set is empty consumes the one
`Connector.connect()` result `nc`, returns exactly that connection (the one
the `_WrappedConnection` wraps), registers it at the current time as the
single new registry entry — the idle set stays empty, the close log is
untouched, and the registry grows by exactly one entry. -/
theorem C8_connect_empty_idle_creates_one (env : Env) (now : Int) (s : PoolState)
    (nc : Conn) (hempty : s.idle = []) (hfresh : alookup s.all nc = none) :
    connect env (some nc) now s = Except.ok (nc, ⟨[], aset s.all nc now, s.closedLog⟩) ∧
      alookup (aset s.all nc now) nc = some now ∧
      (aset s.all nc now).length = s.all.length + 1 := by
  refine ⟨?_, alookup_aset_self s.all nc now, aset_length_fresh s.all nc now hfresh⟩
  unfold connect
  rw [hempty]
  rfl

/-- Witness for C8 on a pool with an empty idle set and one checked-out
registered connection. -/
theorem C8_connect_empty_idle_creates_one_witness :
    connect envLive (some 4) 9 ⟨[], [(1, 2)], []⟩ =
        Except.ok (4, ⟨[], [(1, 2), (4, 9)], []⟩) ∧
      alookup [(1, 2), (4, 9)] 4 = some 9 ∧
      ([(1, 2), (4, 9)] : List (Conn × Int)).length =
        ([(1, 2)] : List (Conn × Int)).length + 1 :=
  C8_connect_empty_idle_creates_one envLive 9 ⟨[], [(1, 2)], []⟩ 4 rfl rfl

/-- C9 counterexample: two connector sources (a postgres connection string
and an injected connector) are supplied, yet construction succeeds using the
injected connector — the claim says supplying more than one source is
rejected at construction time. -/
theorem C9_counterexample :
    numSources (some "pg") none (some ()) = 2 ∧
      poolInit (some "pg") none (some ()) = Except.ok ChosenConnector.injected :=
  ⟨rfl, rfl⟩

/-- C9 amended: construction raises the configuration ValueError iff no
connector source at all is supplied; when several are supplied the precedence
is connector, then postgres, then mysql (no rejection), and a mysql-only pool
fails with NotImplementedError from MySQLConnector.__init__, not with the
configuration error. -/
theorem C9_valueError_iff_no_source (postgres mysql : Option String)
    (connector : Option Unit) :
    poolInit postgres mysql connector = Except.error InitError.valueError ↔
      postgres = none ∧ mysql = none ∧ connector = none := by
  cases connector <;> cases postgres <;> cases mysql <;> simp [poolInit]

/-- C10: returning a not-closed connection that is already in the idle set is
a complete no-op — the idle set, the registry (including the connection's
timestamp) and the close log are all unchanged. -/
theorem C10_return_idle_open_noop (env : Env) (now : Int) (c : Conn) (s : PoolState)
    (hopen : env.isClosed c = false) (hidle : c ∈ s.idle) :
    returnConnection env now c s = s := by
  simp [returnConnection, hopen, hidle]

/-- Witness for C10: connection 1, open and idle with timestamp 7; a second
return at time 42 changes nothing (in particular the timestamp stays 7). -/
theorem C10_return_idle_open_noop_witness :
    returnConnection envLive 42 1 ⟨[1], [(1, 7)], []⟩ = ⟨[1], [(1, 7)], []⟩ :=
  C10_return_idle_open_noop envLive 42 1 ⟨[1], [(1, 7)], []⟩ rfl (by simp)

end ConnectionPool
